import Mathlib

/-!
Verification of the time-series decomposition pipeline of `src/asqp.py`:
the moving-average smoother `remove_irregularities`, the least-squares fit
`perform_least_squares`, the detrender `remove_trend` and the seasonal
aggregator `is_seasonal`.  Series are embedded as lists of rationals
(exact arithmetic in place of IEEE floats); numpy slicing, `mean`,
`argmax` and `lstsq` are embedded by their documented semantics.
-/

/-- Error vocabulary for the embedded pipeline.  `invalidArgument` is the
precondition-violation error of the design documents; the source never
raises it.  `nanValue` models a NaN-contaminated numpy result: the only
abnormal outcome the source can produce is the mean of an empty slice,
which numpy returns as NaN (with a RuntimeWarning), poisoning every value
computed from it. -/
inductive PipeError
  | invalidArgument
  | nanValue
  deriving DecidableEq

/-- Python sequence slicing `l[a:b]` (step 1): a negative endpoint counts
from the end of the sequence (`len(l) + a`), then both endpoints are
clamped to `[0, len(l)]`; the slice is empty when start is not below
stop. -/
def pySlice (l : List ℚ) (a b : ℤ) : List ℚ :=
  (l.take (if b < 0 then max 0 ((l.length : ℤ) + b) else min b (l.length : ℤ)).toNat).drop
    (if a < 0 then max 0 ((l.length : ℤ) + a) else min a (l.length : ℤ)).toNat

/-- numpy `ndarray.mean` of a one-dimensional slice: the arithmetic mean,
and NaN (modelled as `none`) when the slice is empty. -/
def npMean (l : List ℚ) : Option ℚ :=
  if l = [] then none else some (l.sum / l.length)

/-- One iteration of the loop of `remove_irregularities` (src/asqp.py
lines 162-165): `start = i - width if i - width > 0 else 0`,
`end = i + width + 1 if i + width + 1 < num_rows else num_rows`, and the
mean of `ts[start:end]` written into position `i`. -/
def smoothOne (ts : List ℚ) (width : ℤ) (i : ℕ) : Option ℚ :=
  npMean (pySlice ts
    (if (i : ℤ) - width > 0 then (i : ℤ) - width else 0)
    (if (i : ℤ) + width + 1 < (ts.length : ℤ) then (i : ℤ) + width + 1
      else (ts.length : ℤ)))

/-- Embedding of `remove_irregularities` (src/asqp.py lines 147-167): the
window mean at every index `i` of `range(len(ts))`.  When every window is
nonempty the function returns the smoothed values; when some window is
empty its mean is NaN and the returned array is NaN-contaminated, which
the embedding reports as the `nanValue` outcome. -/
def remove_irregularities (ts : List ℚ) (width : ℤ) : Except PipeError (List ℚ) :=
  if (List.range ts.length).all (fun i => (smoothOne ts width i).isSome) then
    Except.ok ((List.range ts.length).map (fun i => (smoothOne ts width i).getD 0))
  else
    Except.error PipeError.nanValue

/-- The ordinary-least-squares slope of `y` against `x = 0, 1, ..., N-1`:
`(N*Sxy - Sx*Sy) / (N*Sxx - Sx^2)`.  This is the first component of the
least-squares solution of `vstack([x, ones]).T @ [m, b] = y` whenever the
design matrix has full column rank, i.e. whenever `N >= 2`. -/
def lstsqSlope (y : List ℚ) : ℚ :=
  ((y.length : ℚ) * (∑ i in Finset.range y.length, (i : ℚ) * y.getD i 0)
      - (∑ i in Finset.range y.length, (i : ℚ)) * (∑ i in Finset.range y.length, y.getD i 0))
    / ((y.length : ℚ) * (∑ i in Finset.range y.length, (i : ℚ) * i)
      - (∑ i in Finset.range y.length, (i : ℚ)) * (∑ i in Finset.range y.length, (i : ℚ)))

/-- The ordinary-least-squares intercept of `y` against `x = 0, ..., N-1`:
`(Sy - m*Sx) / N`, the second component of the full-rank least-squares
solution. -/
def lstsqIntercept (y : List ℚ) : ℚ :=
  ((∑ i in Finset.range y.length, y.getD i 0)
      - lstsqSlope y * (∑ i in Finset.range y.length, (i : ℚ)))
    / (y.length : ℚ)

/-- Embedding of `perform_least_squares` (src/asqp.py lines 127-142).  It
builds `A = np.vstack([np.arange(len(y)), np.ones(len(y))]).T` and returns
`np.linalg.lstsq(A, y)[0]`, the minimum-norm least-squares solution.  For
`len(y) >= 2` the matrix has full column rank and the solution is the
unique closed-form OLS pair; for `len(y) == 1` every pair `(m, y[0])` has
zero residual and the minimum-norm one is `(0, y[0])`; for `len(y) == 0`
every pair has zero residual and the minimum-norm one is `(0, 0)`. -/
def perform_least_squares (y : List ℚ) : ℚ × ℚ :=
  if y.length < 2 then (0, y.headD 0)
  else (lstsqSlope y, lstsqIntercept y)

/-- Embedding of `remove_trend` (src/asqp.py lines 170-187): smooth, fit a
line to the smoothed copy, and subtract `m*i` from the original value at
every index `i` (the intercept `b` is bound but unused).  An error outcome
of the smoothing step (a NaN-contaminated smoothed array, whose NaN values
then poison the fit and the subtraction) propagates. -/
def remove_trend (ts : List ℚ) (width : ℤ) : Except PipeError (List ℚ) :=
  match remove_irregularities ts width with
  | Except.error e => Except.error e
  | Except.ok smoothed =>
    Except.ok ((List.range ts.length).map
      (fun i => ts.getD i 0 - (perform_least_squares smoothed).1 * i))

/-- numpy strided slicing `l[start::step]` (`step >= 1`): the elements at
indices `start, start + step, start + 2*step, ...` below `len(l)`. -/
def pyStride (l : List ℚ) (start step : ℕ) : List ℚ :=
  ((List.range l.length).filter (fun k => start + step * k < l.length)).map
    (fun k => l.getD (start + step * k) 0)

/-- The scan of numpy `argmax`: walk the remaining values keeping the index
and value of the current best, replacing it only on a strictly larger
value, so the first occurrence of the maximum wins. -/
def npArgmaxAux : List ℚ → ℕ → ℕ → ℚ → ℕ
  | [], _, besti, _ => besti
  | v :: vs, cur, besti, bestv =>
    if bestv < v then npArgmaxAux vs (cur + 1) cur v
    else npArgmaxAux vs (cur + 1) besti bestv

/-- numpy `np.argmax` on a one-dimensional array: the index of the first
occurrence of the maximum value (0 on the empty array, on which numpy
raises instead; it is only applied to length-12 arrays here). -/
def npArgmax : List ℚ → ℕ
  | [] => 0
  | v :: vs => npArgmaxAux vs 1 0 v

/-- Embedding of `is_seasonal` (src/asqp.py lines 190-211): detrend, sum
the strided slices `trendless[i::12]` for `i = 0, ..., 11` into the 12
month buckets, and return the buckets with `np.argmax` of them.  The
period 12 is hardcoded; there is no `period` parameter.  An error outcome
of the detrending step propagates. -/
def is_seasonal (ts : List ℚ) (width : ℤ) : Except PipeError (List ℚ × ℕ) :=
  match remove_trend ts width with
  | Except.error e => Except.error e
  | Except.ok trendless =>
    Except.ok ((List.range 12).map (fun i => (pyStride trendless i 12).sum),
      npArgmax ((List.range 12).map (fun i => (pyStride trendless i 12).sum)))

/-- The boundary-clipped window mean of the specification: the arithmetic
mean of `series[max(0, i-width) .. min(N, i+width+1))` (half-open).  With
natural subtraction, `i - w` is `max(0, i-w)`. -/
def windowMean (ts : List ℚ) (w : ℕ) (i : ℕ) : ℚ :=
  ((ts.drop (i - w)).take (min ts.length (i + w + 1) - (i - w))).sum
    / ((min ts.length (i + w + 1) - (i - w) : ℕ) : ℚ)

/-- The smoother as the specification words it: the boundary-clipped
window mean at every index of the series. -/
def smoothSpec (ts : List ℚ) (w : ℕ) : List ℚ :=
  (List.range ts.length).map (windowMean ts w)

/-- The seasonal bucket of phase `p` as the specification words it: the
sum of all values whose index is congruent to `p` modulo 12. -/
def bucketSumSpec (l : List ℚ) (p : ℕ) : ℚ :=
  ∑ j in Finset.range l.length, if j % 12 = p then l.getD j 0 else 0

/-- The twelve seasonal bucket sums, phase by phase. -/
def specMonths (l : List ℚ) : List ℚ :=
  (List.range 12).map (fun p => bucketSumSpec l p)

/-- The index `k` is the first maximum of `l`: in range, no value exceeds
`l[k]`, and every earlier value is strictly below `l[k]`. -/
def IsFirstMax (l : List ℚ) (k : ℕ) : Prop :=
  k < l.length ∧ (∀ j < l.length, l.getD j 0 ≤ l.getD k 0) ∧
    ∀ j < k, l.getD j 0 < l.getD k 0

theorem map_getD_range (l : List ℚ) :
    (List.range l.length).map (fun i => l.getD i 0) = l := by
  induction l with
  | nil => rfl
  | cons a t ih =>
    rw [List.length_cons, List.range_succ_eq_map, List.map_cons, List.map_map]
    refine congrArg (List.cons a) ?_
    calc (List.range t.length).map ((fun i => (a :: t).getD i 0) ∘ Nat.succ)
        = (List.range t.length).map (fun i => t.getD i 0) := by
          refine List.map_congr_left ?_
          intro i _
          simp
      _ = t := ih

theorem pySlice_coe (l : List ℚ) (a b : ℕ) (ha : a ≤ l.length) (hb : b ≤ l.length) :
    pySlice l (a : ℤ) (b : ℤ) = (l.drop a).take (b - a) := by
  rw [pySlice]
  have h1 : (if (b : ℤ) < 0 then max 0 ((l.length : ℤ) + b)
      else min (b : ℤ) (l.length : ℤ)).toNat = b := by
    split_ifs with h <;> omega
  have h2 : (if (a : ℤ) < 0 then max 0 ((l.length : ℤ) + a)
      else min (a : ℤ) (l.length : ℤ)).toNat = a := by
    split_ifs with h <;> omega
  rw [h1, h2, List.drop_take]

theorem smoothOne_eq (ts : List ℚ) (w i : ℕ) (h : i < ts.length) :
    smoothOne ts (w : ℤ) i = some (windowMean ts w i) := by
  have hA : (if (i : ℤ) - (w : ℤ) > 0 then (i : ℤ) - (w : ℤ) else 0)
      = ((i - w : ℕ) : ℤ) := by
    split_ifs with h1 <;> omega
  have hB : (if (i : ℤ) + (w : ℤ) + 1 < (ts.length : ℤ) then (i : ℤ) + (w : ℤ) + 1
      else (ts.length : ℤ)) = ((min ts.length (i + w + 1) : ℕ) : ℤ) := by
    split_ifs with h1 <;> omega
  rw [smoothOne]
  rw [hA, hB,
    pySlice_coe ts (i - w) (min ts.length (i + w + 1)) (by omega) (min_le_left _ _)]
  have hlen : ((ts.drop (i - w)).take (min ts.length (i + w + 1) - (i - w))).length
      = min ts.length (i + w + 1) - (i - w) := by
    rw [List.length_take, List.length_drop]
    omega
  have hne : (ts.drop (i - w)).take (min ts.length (i + w + 1) - (i - w)) ≠ [] := by
    intro hcon
    rw [hcon] at hlen
    simp only [List.length_nil] at hlen
    omega
  rw [npMean, if_neg hne, hlen, windowMean]

theorem remove_irregularities_coe (ts : List ℚ) (w : ℕ) :
    remove_irregularities ts (w : ℤ) = Except.ok (smoothSpec ts w) := by
  rw [remove_irregularities]
  have hall : (List.range ts.length).all
      (fun i => (smoothOne ts (w : ℤ) i).isSome) = true := by
    rw [List.all_eq_true]
    intro i hi
    rw [List.mem_range] at hi
    rw [smoothOne_eq ts w i hi]
    rfl
  simp only [hall, if_true]
  refine congrArg Except.ok ?_
  rw [smoothSpec]
  refine List.map_congr_left ?_
  intro i hi
  rw [List.mem_range] at hi
  rw [smoothOne_eq ts w i hi]
  rfl

theorem smoothSpec_zero (ts : List ℚ) : smoothSpec ts 0 = ts := by
  rw [smoothSpec]
  have hcong : ∀ i ∈ List.range ts.length,
      windowMean ts 0 i = ts.getD i 0 := by
    intro i hi
    rw [List.mem_range] at hi
    rw [windowMean]
    have h2 : min ts.length (i + 0 + 1) = i + 1 := by omega
    have h1 : i - 0 = i := rfl
    rw [h1, h2]
    have h3 : i + 1 - i = 1 := by omega
    rw [h3]
    rw [List.drop_eq_getElem_cons (by omega : i < ts.length), List.take_succ_cons,
      List.take_zero, List.sum_cons, List.sum_nil,
      List.getD_eq_getElem ts 0 (by omega : i < ts.length)]
    push_cast
    ring
  rw [List.map_congr_left hcong, map_getD_range]

theorem remove_trend_coe (ts : List ℚ) (w : ℕ) :
    remove_trend ts (w : ℤ) = Except.ok ((List.range ts.length).map
      (fun i => ts.getD i 0 - (perform_least_squares (smoothSpec ts w)).1 * i)) := by
  rw [remove_trend, remove_irregularities_coe ts w]

/-- C7: smoothing with width 0 is the identity: every window covers exactly
the one element at its own index, so `remove_irregularities ts 0` returns
the input series unchanged. -/
theorem smooth_width_zero_identity (ts : List ℚ) :
    remove_irregularities ts 0 = Except.ok ts := by
  have h := remove_irregularities_coe ts 0
  rw [Nat.cast_zero] at h
  rw [h, smoothSpec_zero]

/-- C1: for every series and every width `w >= 0`, the smoothed series has
at index `i` the arithmetic mean of the boundary-clipped half-open window
`series[max(0, i-w) .. min(N, i+w+1))` (see `windowMean` and `smoothSpec`);
in particular `smooth([1,2,3,4,5], 1) = [1.5, 2.0, 3.0, 4.0, 4.5]`. -/
theorem smoother_window_mean :
    (∀ (ts : List ℚ) (w : ℕ),
      remove_irregularities ts (w : ℤ) = Except.ok (smoothSpec ts w)) ∧
    remove_irregularities [1, 2, 3, 4, 5] 1 =
      Except.ok [3/2, 2, 3, 4, 9/2] := by
  refine ⟨remove_irregularities_coe, ?_⟩
  with_unfolding_all rfl

theorem pySlice_zero_stop (l : List ℚ) (a : ℤ) : pySlice l a 0 = [] := by
  rw [pySlice]
  have h0 : (if (0 : ℤ) < 0 then max 0 ((l.length : ℤ) + 0)
      else min 0 (l.length : ℤ)).toNat = 0 := by
    split_ifs <;> omega
  rw [h0, List.take_zero, List.drop_nil]

theorem remove_irregularities_error_nan (ts : List ℚ) (w : ℤ) (e : PipeError)
    (h : remove_irregularities ts w = Except.error e) : e = PipeError.nanValue := by
  rw [remove_irregularities] at h
  by_cases hc : (List.range ts.length).all (fun i => (smoothOne ts w i).isSome) = true
  · rw [if_pos hc] at h
    exact absurd h (fun hh => Except.noConfusion hh)
  · rw [if_neg hc] at h
    injection h with h2
    exact h2.symm

theorem remove_trend_error_nan (ts : List ℚ) (w : ℤ) (e : PipeError)
    (h : remove_trend ts w = Except.error e) : e = PipeError.nanValue := by
  rw [remove_trend] at h
  cases hs : remove_irregularities ts w with
  | error e2 =>
    rw [hs] at h
    injection h with h2
    rw [h2] at hs
    exact remove_irregularities_error_nan ts w e hs
  | ok s =>
    rw [hs] at h
    exact absurd h (fun hh => Except.noConfusion hh)

theorem is_seasonal_error_nan (ts : List ℚ) (w : ℤ) (e : PipeError)
    (h : is_seasonal ts w = Except.error e) : e = PipeError.nanValue := by
  rw [is_seasonal] at h
  cases hs : remove_trend ts w with
  | error e2 =>
    rw [hs] at h
    injection h with h2
    rw [h2] at hs
    exact remove_trend_error_nan ts w e hs
  | ok s =>
    rw [hs] at h
    exact absurd h (fun hh => Except.noConfusion hh)

/-- C5 (amended): the smoother performs no width validation.  For
`width = -1` on any nonempty series, every loop window `ts[i+1:i]` is
empty, so each position gets the mean of an empty slice (NaN): the call
returns a NaN-filled array (modelled `nanValue`), not an
`InvalidArgument` failure. -/
theorem smooth_negative_width_returns_nan (ts : List ℚ) (h : ts ≠ []) :
    remove_irregularities ts (-1) = Except.error PipeError.nanValue := by
  obtain ⟨a, t, rfl⟩ := List.exists_cons_of_ne_nil h
  have hzero : smoothOne (a :: t) (-1) 0 = none := by
    rw [smoothOne]
    have h1 : ((0 : ℕ) : ℤ) - (-1) > 0 := by norm_num
    have h2 : ((0 : ℕ) : ℤ) + (-1) + 1 < ((a :: t).length : ℤ) := by
      rw [List.length_cons]
      push_cast
      omega
    rw [if_pos h1, if_pos h2]
    have h3 : ((0 : ℕ) : ℤ) + (-1) + 1 = 0 := by norm_num
    rw [h3, pySlice_zero_stop, npMean]
    simp
  have hfalse : (List.range (a :: t).length).all
      (fun i => (smoothOne (a :: t) (-1) i).isSome) = false := by
    rw [List.all_eq_false]
    refine ⟨0, ?_, ?_⟩
    · rw [List.mem_range, List.length_cons]
      omega
    · rw [hzero]
      simp
  rw [remove_irregularities, if_neg (by rw [hfalse]; exact Bool.false_ne_true)]

/-- C5 (counterexample to the claim as stated): `smooth([1,2,3], -1)` does
not fail with `InvalidArgument`; it produces the NaN outcome of taking
means of empty windows. -/
theorem smooth_negative_width_cex :
    remove_irregularities [1, 2, 3] (-1) = Except.error PipeError.nanValue ∧
    remove_irregularities [1, 2, 3] (-1) ≠ Except.error PipeError.invalidArgument := by
  constructor
  · with_unfolding_all rfl
  · intro hcon
    have h2 := remove_irregularities_error_nan [1, 2, 3] (-1) PipeError.invalidArgument hcon
    exact absurd h2 (fun hh => PipeError.noConfusion hh)

/-- C5 witness: the amended statement applied to the concrete series
`[1, 2, 3]`. -/
theorem smooth_negative_width_returns_nan_witness :
    remove_irregularities [1, 2, 3] (-1) = Except.error PipeError.nanValue :=
  smooth_negative_width_returns_nan [1, 2, 3] (by simp)

/-- C8: for every series and every width `w >= 0` the smoothed series and
the detrended series both have exactly the length of the input series. -/
theorem pipeline_preserves_length (ts : List ℚ) (w : ℕ) :
    Except.map List.length (remove_irregularities ts (w : ℤ)) = Except.ok ts.length ∧
    Except.map List.length (remove_trend ts (w : ℤ)) = Except.ok ts.length := by
  constructor
  · rw [remove_irregularities_coe]
    simp [Except.map, smoothSpec]
  · rw [remove_trend_coe]
    simp [Except.map]

/-- C2: for every series and every width `w >= 0`, with at least two data
points, detrending subtracts from the original series the contribution
`slope * i` of the least-squares slope fitted to the smoothed series (the
intercept of the fit is not subtracted). -/
theorem detrend_subtracts_slope_of_smoothed (ts : List ℚ) (w : ℕ) (h : 2 ≤ ts.length) :
    remove_trend ts (w : ℤ) = Except.ok ((List.range ts.length).map
      (fun i => ts.getD i 0 - lstsqSlope (smoothSpec ts w) * i)) := by
  have hpls : (perform_least_squares (smoothSpec ts w)).1 = lstsqSlope (smoothSpec ts w) := by
    rw [perform_least_squares,
      if_neg (show ¬((smoothSpec ts w).length < 2) by
        rw [smoothSpec, List.length_map, List.length_range]; omega)]
  rw [remove_trend_coe]
  simp only [hpls]

/-- C2 witness: the detrending equation at the concrete series `[4, 1, 7]`
with width 0. -/
theorem detrend_subtracts_slope_of_smoothed_witness :
    remove_trend [4, 1, 7] ((0 : ℕ) : ℤ) =
      Except.ok ((List.range ([4, 1, 7] : List ℚ).length).map
        (fun i => ([4, 1, 7] : List ℚ).getD i 0 - lstsqSlope (smoothSpec [4, 1, 7] 0) * i)) :=
  detrend_subtracts_slope_of_smoothed [4, 1, 7] 0 (by norm_num)

/-- C4 (counterexample to the claim as stated): `fit_line` does not fail
with `InvalidArgument` on series shorter than two points.
`np.linalg.lstsq` returns the minimum-norm solution of the degenerate
system: `(0, 0)` on the empty series and `(0, v)` on a singleton; detrend
and the seasonal aggregator then succeed as well. -/
theorem fit_short_series_cex :
    perform_least_squares [] = (0, 0) ∧
    perform_least_squares [(5 : ℚ)] = (0, 5) ∧
    remove_trend [(5 : ℚ)] 0 = Except.ok [5] ∧
    is_seasonal [(5 : ℚ)] 0 ≠ Except.error PipeError.invalidArgument := by
  refine ⟨rfl, rfl, by with_unfolding_all rfl, ?_⟩
  have hv : is_seasonal [(5 : ℚ)] 0 =
      Except.ok ([5, 0, 0, 0, 0, 0, 0, 0, 0, 0, 0, 0], 0) := by
    with_unfolding_all rfl
  rw [hv]
  exact fun hh => Except.noConfusion hh

/-- C4 (amended): on series of length < 2 the fit succeeds with the
minimum-norm least-squares solution — `fit_line([]) = (0, 0)` and
`fit_line([v]) = (0, v)` — and `remove_trend` and `is_seasonal` on a
singleton succeed as well (no `InvalidArgument` is raised or
propagated). -/
theorem fit_short_series_minimum_norm (v : ℚ) (w : ℕ) :
    perform_least_squares [] = (0, 0) ∧
    perform_least_squares [v] = (0, v) ∧
    remove_trend [v] (w : ℤ) = Except.ok [v] ∧
    ∀ e : PipeError, is_seasonal [v] (w : ℤ) ≠ Except.error e := by
  have htr : remove_trend [v] (w : ℤ) = Except.ok [v] := by
    rw [remove_trend_coe]
    refine congrArg Except.ok ?_
    have h1 : List.range ([v].length) = [0] := rfl
    rw [h1, List.map_cons, List.map_nil]
    simp
  refine ⟨rfl, rfl, htr, ?_⟩
  intro e hcon
  rw [is_seasonal, htr] at hcon
  exact Except.noConfusion hcon

theorem list_sum_map_range (f : ℕ → ℚ) (n : ℕ) :
    ((List.range n).map f).sum = ∑ i in Finset.range n, f i := by
  induction n with
  | zero => rfl
  | succ n ih =>
    rw [List.range_succ, List.map_append, List.sum_append, Finset.sum_range_succ, ih]
    simp

theorem sum_map_filter_range (n : ℕ) (q : ℕ → Bool) (f : ℕ → ℚ) :
    (((List.range n).filter q).map f).sum
      = ∑ k in Finset.range n, if q k then f k else 0 := by
  induction n with
  | zero => rfl
  | succ n ih =>
    rw [List.range_succ, List.filter_append, List.map_append, List.sum_append,
      Finset.sum_range_succ, ih]
    by_cases hq : q n
    · simp [hq]
    · simp [hq]

theorem list_sum_getD (l : List ℚ) :
    (∑ j in Finset.range l.length, l.getD j 0) = l.sum := by
  induction l with
  | nil => rfl
  | cons a t ih =>
    rw [List.length_cons, Finset.sum_range_succ']
    simp only [List.getD_cons_succ, List.getD_cons_zero]
    rw [ih, List.sum_cons, add_comm]

theorem pyStride_sum_eq_bucket (l : List ℚ) (p : ℕ) (hp : p < 12) :
    (pyStride l p 12).sum = bucketSumSpec l p := by
  rw [pyStride, sum_map_filter_range, bucketSumSpec]
  simp only [decide_eq_true_eq]
  rw [← Finset.sum_filter, ← Finset.sum_filter]
  refine Finset.sum_nbij' (fun k => p + 12 * k) (fun j => (j - p) / 12)
    ?_ ?_ ?_ ?_ ?_
  · intro a ha
    simp only [Finset.mem_filter, Finset.mem_range] at ha ⊢
    omega
  · intro a ha
    simp only [Finset.mem_filter, Finset.mem_range] at ha ⊢
    omega
  · intro a ha
    simp only [Finset.mem_filter, Finset.mem_range] at ha
    show (p + 12 * a - p) / 12 = a
    omega
  · intro a ha
    simp only [Finset.mem_filter, Finset.mem_range] at ha
    show p + 12 * ((a - p) / 12) = a
    omega
  · intro a ha
    rfl

theorem months_eq_specMonths (d : List ℚ) :
    (List.range 12).map (fun i => (pyStride d i 12).sum) = specMonths d := by
  rw [specMonths]
  refine List.map_congr_left ?_
  intro p hp
  rw [List.mem_range] at hp
  exact pyStride_sum_eq_bucket d p hp

theorem specMonths_sum (l : List ℚ) : (specMonths l).sum = l.sum := by
  rw [specMonths, list_sum_map_range]
  rw [← list_sum_getD l]
  simp only [bucketSumSpec]
  rw [Finset.sum_comm]
  refine Finset.sum_congr rfl ?_
  intro j _
  rw [Finset.sum_ite_eq, if_pos (Finset.mem_range.mpr (Nat.mod_lt _ (by norm_num)))]

/-- C10: whenever the seasonal aggregator runs, the sum of the 12 bucket
sums equals the sum of the whole detrended series: bucketing by index
modulo 12 partitions the indices, dropping and double-counting nothing. -/
theorem seasonal_buckets_partition_sum (ts : List ℚ) (w : ℤ) :
    Except.map (fun r => r.1.sum) (is_seasonal ts w)
      = Except.map (fun d => d.sum) (remove_trend ts w) := by
  cases htr : remove_trend ts w with
  | error e =>
    rw [is_seasonal, htr]
    rfl
  | ok d =>
    rw [is_seasonal, htr]
    simp only [Except.map]
    refine congrArg Except.ok ?_
    rw [months_eq_specMonths, specMonths_sum]

theorem npArgmaxAux_first_max (vs : List ℚ) : ∀ (p : List ℚ) (bi : ℕ) (bv : ℚ),
    bi < p.length → p.getD bi 0 = bv →
    (∀ j < p.length, p.getD j 0 ≤ bv) →
    (∀ j < bi, p.getD j 0 < bv) →
    IsFirstMax (p ++ vs) (npArgmaxAux vs p.length bi bv) := by
  induction vs with
  | nil =>
    intro p bi bv h1 h2 h3 h4
    subst h2
    rw [npArgmaxAux, List.append_nil]
    exact ⟨h1, h3, h4⟩
  | cons v vs ih =>
    intro p bi bv h1 h2 h3 h4
    subst h2
    rw [npArgmaxAux]
    have hl2 : (p ++ [v]).length = p.length + 1 := by simp
    by_cases hlt : p.getD bi 0 < v
    · rw [if_pos hlt]
      have hres : IsFirstMax ((p ++ [v]) ++ vs)
          (npArgmaxAux vs (p ++ [v]).length p.length v) := by
        refine ih (p ++ [v]) p.length v (by simp) ?_ ?_ ?_
        · rw [List.getD_append_right _ _ _ _ (le_refl p.length)]
          simp
        · intro j hj
          rw [hl2] at hj
          rcases Nat.lt_succ_iff_lt_or_eq.mp hj with hj2 | hj2
          · rw [List.getD_append _ _ _ _ hj2]
            exact le_of_lt (lt_of_le_of_lt (h3 j hj2) hlt)
          · subst hj2
            rw [List.getD_append_right _ _ _ _ (le_refl p.length)]
            simp
        · intro j hj
          rw [List.getD_append _ _ _ _ hj]
          exact lt_of_le_of_lt (h3 j hj) hlt
      rw [hl2, List.append_assoc] at hres
      simpa using hres
    · rw [if_neg hlt]
      have hle : v ≤ p.getD bi 0 := le_of_not_lt hlt
      have hres : IsFirstMax ((p ++ [v]) ++ vs)
          (npArgmaxAux vs (p ++ [v]).length bi (p.getD bi 0)) := by
        refine ih (p ++ [v]) bi (p.getD bi 0) (by rw [hl2]; omega) ?_ ?_ ?_
        · rw [List.getD_append _ _ _ _ h1]
        · intro j hj
          rw [hl2] at hj
          rcases Nat.lt_succ_iff_lt_or_eq.mp hj with hj2 | hj2
          · rw [List.getD_append _ _ _ _ hj2]
            exact h3 j hj2
          · subst hj2
            rw [List.getD_append_right _ _ _ _ (le_refl p.length)]
            simpa using hle
        · intro j hj
          rw [List.getD_append _ _ _ _ (lt_trans hj h1)]
          exact h4 j hj
      rw [hl2, List.append_assoc] at hres
      simpa using hres

theorem npArgmax_first_max (l : List ℚ) (h : l ≠ []) : IsFirstMax l (npArgmax l) := by
  obtain ⟨a, t, rfl⟩ := List.exists_cons_of_ne_nil h
  rw [npArgmax]
  have hres := npArgmaxAux_first_max t [a] 0 a (by simp) (by simp)
    (by
      intro j hj
      have hj0 : j = 0 := by simpa using Nat.lt_one_iff.mp (by simpa using hj)
      subst hj0
      simp)
    (by
      intro j hj
      exact absurd hj (by omega))
  simpa using hres

theorem is_seasonal_ok (ts : List ℚ) (w : ℤ) (d : List ℚ)
    (h : remove_trend ts w = Except.ok d) :
    is_seasonal ts w = Except.ok (specMonths d, npArgmax (specMonths d)) := by
  rw [is_seasonal, h]
  exact congrArg Except.ok (by rw [months_eq_specMonths])

theorem specMonths_ne_nil (d : List ℚ) : specMonths d ≠ [] := by
  rw [specMonths]
  simp

/-- C3: for every series and every width `w >= 0`, the seasonal aggregator
returns the 12 bucket sums of the detrended series — bucket `p` summing
exactly the detrended values at indices congruent to `p` modulo 12 (see
`bucketSumSpec` and `specMonths`) — together with the index of the first
maximum bucket (no value exceeds it, every earlier bucket is strictly
smaller); on ties the smallest index wins, as in `argmax [5,7,7,3] = 1`. -/
theorem seasonal_buckets_mod12_first_argmax (ts : List ℚ) (w : ℕ) :
    (∃ d, remove_trend ts (w : ℤ) = Except.ok d ∧
      is_seasonal ts (w : ℤ) = Except.ok (specMonths d, npArgmax (specMonths d)) ∧
      IsFirstMax (specMonths d) (npArgmax (specMonths d))) ∧
    npArgmax [5, 7, 7, 3] = 1 := by
  constructor
  · have h := remove_trend_coe ts w
    exact ⟨_, h, is_seasonal_ok ts (w : ℤ) _ h,
      npArgmax_first_max _ (specMonths_ne_nil _)⟩
  · with_unfolding_all rfl

/-- C6 (counterexample to the claim as stated): the seasonal aggregator of
the source takes no `period` argument at all — the period is the constant
12 — so no call can fail on `period <= 0`; on the concrete series
`[0, 10, 0, 10]` with width 0 it simply succeeds with 12 buckets. -/
theorem seasonal_no_period_parameter_cex :
    is_seasonal [0, 10, 0, 10] 0 =
      Except.ok ([0, 8, -4, 4, 0, 0, 0, 0, 0, 0, 0, 0], 1) := by
  with_unfolding_all rfl

/-- C6 (amended): `is_seasonal` takes only a series and a width; the
period is hardcoded to 12 and never validated.  It never fails with
`InvalidArgument`, and for every width `>= 0` it succeeds with exactly 12
buckets. -/
theorem seasonal_period_hardcoded_12 (ts : List ℚ) (w : ℤ) :
    is_seasonal ts w ≠ Except.error PipeError.invalidArgument ∧
    (0 ≤ w → Except.map (fun r => r.1.length) (is_seasonal ts w) = Except.ok 12) := by
  constructor
  · intro hcon
    have h2 := is_seasonal_error_nan ts w _ hcon
    exact absurd h2 (fun hh => PipeError.noConfusion hh)
  · intro hw
    obtain ⟨n, rfl⟩ : ∃ n : ℕ, w = (n : ℤ) := ⟨w.toNat, (Int.toNat_of_nonneg hw).symm⟩
    rw [is_seasonal_ok ts (n : ℤ) _ (remove_trend_coe ts n)]
    simp [Except.map, specMonths]

theorem sum_range_cast (n : ℕ) :
    (∑ i in Finset.range n, (i : ℚ)) = n * (n - 1) / 2 := by
  induction n with
  | zero => simp
  | succ n ih =>
    rw [Finset.sum_range_succ, ih]
    push_cast
    ring

theorem sum_range_sq_cast (n : ℕ) :
    (∑ i in Finset.range n, (i : ℚ) * i) = n * (n - 1) * (2 * n - 1) / 6 := by
  induction n with
  | zero => simp
  | succ n ih =>
    rw [Finset.sum_range_succ, ih]
    push_cast
    ring

/-- C9: on an exactly linear series `[b, b+m, ..., b+(N-1)m]` with
`N >= 2`, the least-squares fit recovers the slope `m` and the intercept
`b` exactly (the embedding computes in exact rational arithmetic, so the
floating-point tolerance of the specification is 0 here); the constant
series is the case `m = 0`, giving slope 0 and intercept `values[0]`. -/
theorem fit_line_exact_on_line (N : ℕ) (m b : ℚ) (h : 2 ≤ N) :
    perform_least_squares ((List.range N).map (fun (i : ℕ) => b + m * i)) = (m, b) := by
  set y := (List.range N).map (fun (i : ℕ) => b + m * i) with hy
  have hlen : y.length = N := by rw [hy, List.length_map, List.length_range]
  have hgetD : ∀ i ∈ Finset.range N, y.getD i 0 = b + m * i := by
    intro i hi
    rw [Finset.mem_range] at hi
    rw [hy, List.getD_eq_getElem _ _ (by rw [List.length_map, List.length_range]; exact hi),
      List.getElem_map, List.getElem_range]
  have hN0 : ((N : ℚ)) ≠ 0 := by
    have : (2 : ℚ) ≤ (N : ℚ) := by exact_mod_cast h
    linarith
  have hsy : (∑ i in Finset.range N, y.getD i 0)
      = (N : ℚ) * b + m * (∑ i in Finset.range N, (i : ℚ)) := by
    rw [Finset.sum_congr rfl hgetD, Finset.sum_add_distrib, Finset.sum_const,
      Finset.card_range, nsmul_eq_mul, Finset.mul_sum]
  have hsxy : (∑ i in Finset.range N, (i : ℚ) * y.getD i 0)
      = b * (∑ i in Finset.range N, (i : ℚ))
        + m * (∑ i in Finset.range N, (i : ℚ) * i) := by
    have hc : ∀ i ∈ Finset.range N, (i : ℚ) * y.getD i 0
        = b * i + m * ((i : ℚ) * i) := by
      intro i hi
      rw [hgetD i hi]
      ring
    rw [Finset.sum_congr rfl hc, Finset.sum_add_distrib, ← Finset.mul_sum, ← Finset.mul_sum]
  have hD : (N : ℚ) * (∑ i in Finset.range N, (i : ℚ) * i)
      - (∑ i in Finset.range N, (i : ℚ)) * (∑ i in Finset.range N, (i : ℚ))
      = (N : ℚ) * N * ((N : ℚ) - 1) * ((N : ℚ) + 1) / 12 := by
    rw [sum_range_cast, sum_range_sq_cast]
    ring
  have hDpos : 0 < (N : ℚ) * N * ((N : ℚ) - 1) * ((N : ℚ) + 1) / 12 := by
    have h2 : (2 : ℚ) ≤ (N : ℚ) := by exact_mod_cast h
    apply div_pos _ (by norm_num)
    apply mul_pos (mul_pos (mul_pos (by linarith) (by linarith)) (by linarith))
    linarith
  have hDne : (N : ℚ) * (∑ i in Finset.range N, (i : ℚ) * i)
      - (∑ i in Finset.range N, (i : ℚ)) * (∑ i in Finset.range N, (i : ℚ)) ≠ 0 := by
    rw [hD]
    exact ne_of_gt hDpos
  have hslope : lstsqSlope y = m := by
    rw [lstsqSlope, hlen, hsy, hsxy]
    have hnum : (N : ℚ) * (b * (∑ i in Finset.range N, (i : ℚ))
          + m * (∑ i in Finset.range N, (i : ℚ) * i))
        - (∑ i in Finset.range N, (i : ℚ))
          * ((N : ℚ) * b + m * (∑ i in Finset.range N, (i : ℚ)))
        = m * ((N : ℚ) * (∑ i in Finset.range N, (i : ℚ) * i)
          - (∑ i in Finset.range N, (i : ℚ)) * (∑ i in Finset.range N, (i : ℚ))) := by
      ring
    rw [hnum, mul_div_assoc, div_self hDne, mul_one]
  have hintercept : lstsqIntercept y = b := by
    rw [lstsqIntercept, hlen, hsy, hslope]
    have hnum : (N : ℚ) * b + m * (∑ i in Finset.range N, (i : ℚ))
        - m * (∑ i in Finset.range N, (i : ℚ)) = (N : ℚ) * b := by
      ring
    rw [hnum, mul_comm, mul_div_assoc, div_self hN0, mul_one]
  rw [perform_least_squares, if_neg (by rw [hlen]; omega), hslope, hintercept]

/-- C9 witness: the fit on the concrete line `5 + 3*i`, `i = 0..3`. -/
theorem fit_line_exact_on_line_witness :
    perform_least_squares ((List.range 4).map (fun (i : ℕ) => (5 : ℚ) + 3 * i)) = (3, 5) :=
  fit_line_exact_on_line 4 3 5 (by norm_num)
